import Mathlib

/-!
# Verification of the openscreenPlus export pipeline

A shallow embedding, in Lean 4 over exact rational arithmetic, of the
export-pipeline code of the repository:

* `applyZoomTransform` (src/components/video-editor/videoPlayback/zoomTransform.ts)
* `AudioExtractor.processTrimRegions` and `AudioExtractor.decode`
  (src/lib/exporter/audioExtractor.ts)
* the segment planner inside `VideoExporter.export`
  (src/lib/exporter/videoExporter.ts, the later revision of the file)
* the audio-interleaving drain loop of `VideoExporter.recordSegment`
* an event-step model of the capture loop (encode-queue backpressure,
  frame submission, timestamps)
* an event-schedule model of the control flow of `VideoExporter.export`
  (cancellation, encoder errors, the try/catch wrapper, finalize)

JavaScript numbers are modelled as `ℚ` (all arithmetic appearing in the
modelled code is exact on the inputs considered: additions, subtractions,
multiplications, divisions by powers of ten and by the frame rate).
`Math.floor` is `Int.floor`.  Stateful code is modelled by explicit state
passing: each asynchronous suspension point of the single-threaded
JavaScript event loop is a point where environment events (encoder
callbacks, a user `cancel()` call, a rejected await) may fire, and a run
of the code is a fold of a step function over a schedule of such events.
-/

namespace OpenScreen

/-! ## Zoom transform (zoomTransform.ts)

`applyZoomTransform` receives the stage size, the content placement
rectangle (`baseMask`), a zoom scale and a normalized focus point, and
mutates the Pixi camera container: it sets the container scale to
`zoomScale` and the container position to
`stageCenter - focusStagePx * zoomScale`.  The early return for
non-positive dimensions is modelled by an `Option` result (`none` means
the function returned without touching the camera).  -/

structure SizeQ where
  width : ℚ
  height : ℚ
  deriving Repr, DecidableEq

structure RectQ where
  x : ℚ
  y : ℚ
  width : ℚ
  height : ℚ
  deriving Repr, DecidableEq

/-- The camera state written by `applyZoomTransform`:
`cameraContainer.scale` and `cameraContainer.position`. -/
structure CameraTransform where
  scale : ℚ
  posX : ℚ
  posY : ℚ
  deriving Repr, DecidableEq

/-- Shallow embedding of `applyZoomTransform` (zoomTransform.ts, lines
16-63), restricted to the camera fields the claim is about; the motion
blur assignment is embedded separately as `motionBlurAmount`. -/
def applyZoomTransform (stageSize : SizeQ) (baseMask : RectQ)
    (zoomScale focusX focusY : ℚ) : Option CameraTransform :=
  if stageSize.width ≤ 0 ∨ stageSize.height ≤ 0 ∨
      baseMask.width ≤ 0 ∨ baseMask.height ≤ 0 then
    none
  else
    let focusStagePxX := baseMask.x + focusX * baseMask.width
    let focusStagePxY := baseMask.y + focusY * baseMask.height
    let stageCenterX := stageSize.width / 2
    let stageCenterY := stageSize.height / 2
    some { scale := zoomScale
           posX := stageCenterX - focusStagePxX * zoomScale
           posY := stageCenterY - focusStagePxY * zoomScale }

/-- Shallow embedding of the `blurFilter.blur` assignment at the end of
`applyZoomTransform`. -/
def motionBlurAmount (motionBlurEnabled isPlaying : Bool)
    (motionIntensity : ℚ) : ℚ :=
  if motionBlurEnabled ∧ isPlaying ∧ motionIntensity > 5 / 10000 then
    min 6 (motionIntensity * 120)
  else 0

/-- The Pixi `Container` camera semantics: a child point `p` (in
pre-camera stage coordinates) is rendered at `p * scale + position`. -/
def cameraMap (c : CameraTransform) (px py : ℚ) : ℚ × ℚ :=
  (px * c.scale + c.posX, py * c.scale + c.posY)

end OpenScreen

namespace OpenScreen

/-- C9: Zoom focus centering: for positive stage and mask dimensions,
`applyZoomTransform` sets the camera scale to the zoom scale and
positions the camera so that the content point at normalized
`(focusX, focusY)` of the content rectangle is rendered exactly at the
geometric center of the output stage. -/
theorem zoom_focus_centered (stageSize : SizeQ) (baseMask : RectQ)
    (zoomScale focusX focusY : ℚ)
    (hsw : 0 < stageSize.width) (hsh : 0 < stageSize.height)
    (hmw : 0 < baseMask.width) (hmh : 0 < baseMask.height) :
    ∃ c : CameraTransform,
      applyZoomTransform stageSize baseMask zoomScale focusX focusY = some c ∧
      c.scale = zoomScale ∧
      cameraMap c (baseMask.x + focusX * baseMask.width)
        (baseMask.y + focusY * baseMask.height) =
        (stageSize.width / 2, stageSize.height / 2) := by
  have hcond : ¬(stageSize.width ≤ 0 ∨ stageSize.height ≤ 0 ∨
      baseMask.width ≤ 0 ∨ baseMask.height ≤ 0) := by
    push_neg
    exact ⟨hsw, hsh, hmw, hmh⟩
  refine ⟨⟨zoomScale,
      stageSize.width / 2 - (baseMask.x + focusX * baseMask.width) * zoomScale,
      stageSize.height / 2 - (baseMask.y + focusY * baseMask.height) * zoomScale⟩,
    ?_, rfl, ?_⟩
  · simp only [applyZoomTransform, if_neg hcond]
  · simp only [cameraMap, Prod.ext_iff]
    constructor <;> ring

/-- Witness for C9: the spec's scenario, focus `(0.25, 0.75)` at scale
`2.0` on a `1920×1080` stage with content rectangle
`(160, 90, 1600, 900)`, lands at the stage center `(960, 540)`. -/
theorem zoom_focus_centered_witness :
    (0 : ℚ) < 1920 ∧
    ∃ c : CameraTransform,
      applyZoomTransform ⟨1920, 1080⟩ ⟨160, 90, 1600, 900⟩ 2 (1/4) (3/4) = some c ∧
      c.scale = 2 ∧
      cameraMap c (160 + (1/4) * 1600) (90 + (3/4) * 900) = (1920 / 2, 1080 / 2) :=
  ⟨by norm_num,
    zoom_focus_centered ⟨1920, 1080⟩ ⟨160, 90, 1600, 900⟩ 2 (1/4) (3/4)
      (by norm_num) (by norm_num) (by norm_num) (by norm_num)⟩

/-! ## Audio extractor (audioExtractor.ts)

`AudioExtractor.processTrimRegions` receives the decoded `AudioBuffer`
and the configured `trimRegions`.  An `AudioBuffer` is modelled as a
sample rate plus one list of samples per channel.  `Float32Array
.subarray(b, e)` and `.set(src, offset)` are embedded with their
JavaScript semantics (negative indices count from the end, out-of-range
indices are clamped).  -/

structure AudioSegment where
  startMs : ℚ
  endMs : ℚ
  deriving Repr, DecidableEq

structure AudioBuffer where
  sampleRate : ℚ
  data : List (List ℚ)
  deriving Repr, DecidableEq

/-- The `numberOfChannels` of an `AudioBuffer`. -/
def AudioBuffer.numberOfChannels (b : AudioBuffer) : ℕ := b.data.length

/-- Samples per channel (`AudioBuffer.length`), read off the first
channel (all channels of a well-formed buffer have equal length). -/
def AudioBuffer.frameCount (b : AudioBuffer) : ℕ :=
  (b.data.headD []).length

/-- JavaScript `TypedArray.prototype.subarray(b, e)`: a negative index
counts from the end, indices are clamped to `[0, length]`, and the
result is the range `[b', e')` (empty when `e' ≤ b'`). -/
def jsSubarray (l : List ℚ) (b e : ℤ) : List ℚ :=
  let n : ℤ := l.length
  let b' : ℤ := if b < 0 then max (n + b) 0 else min b n
  let e' : ℤ := if e < 0 then max (n + e) 0 else min e n
  (l.take e'.toNat).drop b'.toNat

/-- JavaScript `TypedArray.prototype.set(src, offset)` on a destination
it fits into: overwrite `dest[offset .. offset+|src|)` with `src`. -/
def jsSet (dest src : List ℚ) (offset : ℕ) : List ℚ :=
  dest.take offset ++ src ++ dest.drop (offset + src.length)

/-- Embeds `AudioContext.createBuffer(channels, frames, rate)`: zero-filled. -/
def createBuffer (channels frames : ℕ) (rate : ℚ) : AudioBuffer :=
  ⟨rate, List.replicate channels (List.replicate frames 0)⟩

/-- Embeds `Math.floor((ms / 1000) * sampleRate)`, the sample index of a
millisecond position, as in `processTrimRegions`. -/
def msToFrame (ms rate : ℚ) : ℤ := ⌊ms / 1000 * rate⌋

/-- One iteration of the copy loop of `processTrimRegions` (lines
82-99): copy the region's sample range of every channel to the next
free destination offset. -/
def copyRegionStep (source : AudioBuffer)
    (acc : List (List ℚ) × ℕ) (region : AudioSegment) : List (List ℚ) × ℕ :=
  let startFrame := msToFrame region.startMs source.sampleRate
  let endFrame := msToFrame region.endMs source.sampleRate
  let len : ℤ := max 0 (endFrame - startFrame)
  if 0 < len then
    (List.zipWith
      (fun sourceData destData =>
        jsSet destData (jsSubarray sourceData startFrame (startFrame + len)) acc.2)
      source.data acc.1,
     acc.2 + len.toNat)
  else acc

/-- Shallow embedding of `AudioExtractor.processTrimRegions`
(audioExtractor.ts, lines 56-102).  Note that the code iterates over the
configured `trimRegions` themselves, copying each trim region's sample
range into the output. -/
def processTrimRegions (trimRegions : Option (List AudioSegment))
    (source : AudioBuffer) : AudioBuffer :=
  match trimRegions with
  | none => source
  | some regions =>
    if regions.isEmpty then source
    else
      let sampleRate := source.sampleRate
      let channels := source.numberOfChannels
      let totalFrames : ℤ := regions.foldl
        (fun acc region =>
          acc + max 0 (msToFrame region.endMs sampleRate -
            msToFrame region.startMs sampleRate)) 0
      if totalFrames = 0 then source
      else
        let dest := createBuffer channels totalFrames.toNat sampleRate
        let res := regions.foldl (copyRegionStep source) (dest.data, 0)
        ⟨sampleRate, res.1⟩

/-- The concrete decoded buffer of the failing input for C2: one
channel, 10 samples (values 0..9), sample rate 10 Hz. -/
def demoAudioBuffer : AudioBuffer :=
  ⟨10, [[0, 1, 2, 3, 4, 5, 6, 7, 8, 9]]⟩

/-- C2: Audio splicing, evaluated at the failing input: for the
10-sample one-channel buffer at 10 Hz and the single trim region
`{startMs := 0, endMs := 300}` (covering `K = 3` samples),
`processTrimRegions` returns a buffer of `3` samples per channel holding
exactly the trimmed range's samples `[0, 1, 2]` — not, as the claim
states, `N − K = 7` samples holding the retained samples `[3 .. 9]`.
The code copies the trim regions themselves into the output instead of
their complement. -/
theorem audio_trim_keeps_trimmed_range :
    processTrimRegions (some [⟨0, 300⟩]) demoAudioBuffer = ⟨10, [[0, 1, 2]]⟩ ∧
    (processTrimRegions (some [⟨0, 300⟩]) demoAudioBuffer).frameCount = 3 ∧
    demoAudioBuffer.frameCount - 3 = 7 := by
  have h0 : msToFrame 0 10 = 0 := by norm_num [msToFrame]
  have h3 : msToFrame 300 10 = 3 := by norm_num [msToFrame]
  refine ⟨?_, ?_, ?_⟩ <;>
    simp [processTrimRegions, demoAudioBuffer, AudioBuffer.numberOfChannels,
      AudioBuffer.frameCount, copyRegionStep, createBuffer, jsSubarray, jsSet,
      h0, h3, List.replicate]

/-! ## Segment planner (videoExporter.ts, export(), lines 587-606)

The planner sorts the trim regions by `startMs` (JavaScript
`Array.prototype.sort` with comparator `a.startMs - b.startMs` is a
stable sort by `startMs`; it is embedded as Mathlib's stable
`insertionSort` under the same key), then walks a cursor: a segment is
emitted whenever the next trim starts strictly after the cursor, and the
cursor is then set — unconditionally — to that trim's `endMs`.  A final
segment up to the source duration is emitted when the cursor ends below
it, and the no-trim degenerate case falls back to one full segment.
Trim positions are source milliseconds; segments are seconds. -/

structure TrimRegion where
  startMs : ℚ
  endMs : ℚ
  deriving Repr, DecidableEq

structure Segment where
  start : ℚ
  stop : ℚ
  deriving Repr, DecidableEq

/-- The sort key of `[...trimRegions].sort((a, b) => a.startMs - b.startMs)`. -/
def trimLE (a b : TrimRegion) : Prop := a.startMs ≤ b.startMs

instance : DecidableRel trimLE := fun a b =>
  inferInstanceAs (Decidable (a.startMs ≤ b.startMs))

instance : IsTotal TrimRegion trimLE := ⟨fun a b => le_total a.startMs b.startMs⟩

instance : IsTrans TrimRegion trimLE := ⟨fun _ _ _ h1 h2 => le_trans h1 h2⟩

/-- The stable sort by `startMs` performed at the top of the planner. -/
def sortByStartMs (l : List TrimRegion) : List TrimRegion :=
  l.insertionSort trimLE

/-- One iteration of the planner loop (lines 595-600): emit a segment
when a gap exists before the next trim's start, then move the cursor to
the trim's `endMs`. -/
def planStep (acc : List Segment × ℚ) (trim : TrimRegion) : List Segment × ℚ :=
  (if trim.startMs > acc.2 then
      acc.1 ++ [⟨acc.2 / 1000, trim.startMs / 1000⟩]
    else acc.1,
   trim.endMs)

/-- Shallow embedding of the segment computation of
`VideoExporter.export` (lines 587-606). -/
def planSegments (durationSec : ℚ) (trimRegions : List TrimRegion) : List Segment :=
  let sortedTrims := sortByStartMs trimRegions
  let res := sortedTrims.foldl planStep ([], 0)
  let segments :=
    if res.2 < durationSec * 1000 then res.1 ++ [⟨res.2 / 1000, durationSec⟩]
    else res.1
  if segments.isEmpty && trimRegions.isEmpty then [⟨0, durationSec⟩]
  else segments

/-- A point of the output timeline (seconds) lies in one of the planned
segments (segments taken half-open, `[start, stop)`). -/
def memSegments (segs : List Segment) (x : ℚ) : Prop :=
  ∃ s ∈ segs, s.start ≤ x ∧ x < s.stop

/-- A point (seconds) lies in one of the trim regions (half-open,
positions converted from milliseconds). -/
def memTrims (trims : List TrimRegion) (x : ℚ) : Prop :=
  ∃ t ∈ trims, t.startMs / 1000 ≤ x ∧ x < t.endMs / 1000

/-- C1, counterexample: for the 10-second source with the nested
(overlapping) trim regions `{0ms, 5000ms}` and `{1000ms, 2000ms}`, the
planner outputs the single segment `{start := 2, stop := 10}`: the
point `3 s` lies both in this output and inside the trim region
`{0ms, 5000ms}`, so the union of the segments is not `[0, 10]` minus
the trims — the cursor is set to each trim's `endMs` unconditionally,
which moves it backwards into an already-trimmed range. -/
theorem planner_overlapping_trims_counterexample :
    planSegments 10 [⟨0, 5000⟩, ⟨1000, 2000⟩] = [⟨2, 10⟩] ∧
    memSegments (planSegments 10 [⟨0, 5000⟩, ⟨1000, 2000⟩]) 3 ∧
    memTrims [⟨0, 5000⟩, ⟨1000, 2000⟩] 3 := by
  have h : planSegments 10 [⟨0, 5000⟩, ⟨1000, 2000⟩] = [⟨2, 10⟩] := by
    simp [planSegments, sortByStartMs, List.insertionSort, List.orderedInsert,
      trimLE, planStep]
    norm_num
  refine ⟨h, ?_, ?_⟩
  · exact h ▸ ⟨⟨2, 10⟩, by simp, by norm_num, by norm_num⟩
  · exact ⟨⟨0, 5000⟩, by simp, by norm_num, by norm_num⟩

/-- Recursive form of the planner loop: emitted segments plus the final
cursor.  `foldl_planStep` relates it to the `foldl` of `planSegments`. -/
def planLoop (cur : ℚ) : List TrimRegion → List Segment × ℚ
  | [] => ([], cur)
  | t :: rest =>
    let tail := planLoop t.endMs rest
    ((if t.startMs > cur then [⟨cur / 1000, t.startMs / 1000⟩] else []) ++ tail.1,
     tail.2)

lemma foldl_planStep (l : List TrimRegion) (cur : ℚ) (acc : List Segment) :
    l.foldl planStep (acc, cur) = (acc ++ (planLoop cur l).1, (planLoop cur l).2) := by
  induction l generalizing cur acc with
  | nil => simp [planLoop]
  | cons t rest ih =>
    simp only [List.foldl_cons, planLoop, planStep]
    by_cases h : t.startMs > cur
    · simp [h, ih, List.append_assoc]
    · simp [h, ih]

/-- The loop output together with the final segment up to the duration. -/
def planTail (D cur : ℚ) (l : List TrimRegion) : List Segment :=
  let r := planLoop cur l
  if r.2 < D * 1000 then r.1 ++ [⟨r.2 / 1000, D⟩] else r.1

lemma planTail_nil (D cur : ℚ) :
    planTail D cur [] = if cur < D * 1000 then [⟨cur / 1000, D⟩] else [] := by
  simp [planTail, planLoop]

lemma planTail_cons (D cur : ℚ) (t : TrimRegion) (rest : List TrimRegion) :
    planTail D cur (t :: rest) =
      (if cur < t.startMs then [(⟨cur / 1000, t.startMs / 1000⟩ : Segment)] else []) ++
        planTail D t.endMs rest := by
  simp only [planTail, planLoop]
  by_cases h2 : (planLoop t.endMs rest).2 < D * 1000
  · by_cases h1 : t.startMs > cur <;>
      simp [h1, h2, gt_iff_lt, List.append_assoc]
  · by_cases h1 : t.startMs > cur <;> simp [h1, h2, gt_iff_lt]

lemma memSegments_nil (x : ℚ) : ¬ memSegments [] x := by
  simp [memSegments]

lemma memSegments_cons (s : Segment) (l : List Segment) (x : ℚ) :
    memSegments (s :: l) x ↔ (s.start ≤ x ∧ x < s.stop) ∨ memSegments l x := by
  simp [memSegments, List.mem_cons, or_and_right, exists_or]

lemma memTrims_cons (t : TrimRegion) (l : List TrimRegion) (x : ℚ) :
    memTrims (t :: l) x ↔
      (t.startMs / 1000 ≤ x ∧ x < t.endMs / 1000) ∨ memTrims l x := by
  simp [memTrims, List.mem_cons, or_and_right, exists_or]

/-- Full characterization of the planner tail on a cursor `cur` and a
list of in-range, nonempty, mutually disjoint trims already in
cursor-compatible order. -/
lemma planTail_spec (D : ℚ) (l : List TrimRegion) :
    ∀ cur : ℚ, 0 ≤ cur →
    (∀ t ∈ l, cur ≤ t.startMs ∧ t.startMs < t.endMs ∧ t.endMs ≤ D * 1000) →
    l.Pairwise (fun a b => a.endMs ≤ b.startMs) →
    (∀ s ∈ planTail D cur l, cur / 1000 ≤ s.start ∧ s.start < s.stop ∧ s.stop ≤ D) ∧
    (planTail D cur l).Chain' (fun a b => a.stop ≤ b.start) ∧
    (∀ x : ℚ, memSegments (planTail D cur l) x ↔
      (cur / 1000 ≤ x ∧ x < D ∧ ¬ memTrims l x)) := by
  induction l with
  | nil =>
    intro cur _ _ _
    rw [planTail_nil]
    by_cases h : cur < D * 1000
    · rw [if_pos h]
      refine ⟨?_, by simp, ?_⟩
      · intro s hs
        simp only [List.mem_singleton] at hs
        subst hs
        exact ⟨le_refl _, by constructor <;> [linarith; linarith]⟩
      · intro x
        rw [memSegments_cons]
        simp [memSegments_nil, memTrims]
    · rw [if_neg h]
      refine ⟨by simp, by simp, ?_⟩
      intro x
      simp only [memSegments, List.not_mem_nil, false_and, exists_false,
        exists_prop, false_iff, memTrims, not_and]
      push_neg
      intro hx1 hx2
      exfalso
      push_neg at h
      linarith
  | cons t rest ih =>
    intro cur hcur hvalid hpw
    obtain ⟨hts, hte, htD⟩ := hvalid t (List.mem_cons_self t rest)
    have hhead : ∀ u ∈ rest, t.endMs ≤ u.startMs := (List.pairwise_cons.mp hpw).1
    have hrest := (List.pairwise_cons.mp hpw).2
    have hvalid' : ∀ u ∈ rest,
        t.endMs ≤ u.startMs ∧ u.startMs < u.endMs ∧ u.endMs ≤ D * 1000 := by
      intro u hu
      exact ⟨hhead u hu, (hvalid u (List.mem_cons_of_mem _ hu)).2⟩
    have h0' : (0 : ℚ) ≤ t.endMs := by linarith
    obtain ⟨ihA, ihB, ihC⟩ := ih t.endMs h0' hvalid' hrest
    rw [planTail_cons]
    by_cases hgap : cur < t.startMs
    · rw [if_pos hgap, List.singleton_append]
      refine ⟨?_, ?_, ?_⟩
      · intro s hs
        rcases List.mem_cons.mp hs with rfl | hs'
        · exact ⟨le_refl _, by constructor <;> [linarith; linarith]⟩
        · obtain ⟨h1, h2, h3⟩ := ihA s hs'
          exact ⟨by linarith, h2, h3⟩
      · rw [List.chain'_cons']
        refine ⟨?_, ihB⟩
        intro b hb
        have hbmem : b ∈ planTail D t.endMs rest := List.mem_of_mem_head? hb
        have := (ihA b hbmem).1
        show t.startMs / 1000 ≤ b.start
        linarith
      · intro x
        rw [memSegments_cons, ihC, memTrims_cons]
        constructor
        · rintro (⟨hx1, hx2⟩ | ⟨hx1, hx2, hx3⟩)
          · refine ⟨hx1, by linarith, ?_⟩
            rintro (⟨h1, _⟩ | hmem)
            · linarith
            · obtain ⟨u, hu, hu1, hu2⟩ := hmem
              have := hhead u hu
              linarith
          · refine ⟨by linarith, hx2, ?_⟩
            rintro (⟨h1, h2⟩ | hmem)
            · linarith
            · exact hx3 hmem
        · rintro ⟨hx1, hx2, hx3⟩
          by_cases hxt : x < t.startMs / 1000
          · exact Or.inl ⟨hx1, hxt⟩
          · push_neg at hxt
            have hxe : t.endMs / 1000 ≤ x := by
              by_contra hc
              push_neg at hc
              exact hx3 (Or.inl ⟨hxt, hc⟩)
            exact Or.inr ⟨hxe, hx2, fun hm => hx3 (Or.inr hm)⟩
    · rw [if_neg hgap, List.nil_append]
      push_neg at hgap
      have hcurt : cur = t.startMs := le_antisymm hts hgap
      refine ⟨?_, ihB, ?_⟩
      · intro s hs
        obtain ⟨h1, h2, h3⟩ := ihA s hs
        exact ⟨by linarith, h2, h3⟩
      · intro x
        rw [ihC, memTrims_cons]
        constructor
        · rintro ⟨hx1, hx2, hx3⟩
          refine ⟨by linarith, hx2, ?_⟩
          rintro (⟨h1, h2⟩ | hmem)
          · linarith
          · exact hx3 hmem
        · rintro ⟨hx1, hx2, hx3⟩
          have hxe : t.endMs / 1000 ≤ x := by
            by_contra hc
            push_neg at hc
            refine hx3 (Or.inl ⟨?_, hc⟩)
            linarith
          exact ⟨hxe, hx2, fun hm => hx3 (Or.inr hm)⟩

lemma planSegments_eq_planTail (D : ℚ) (trims : List TrimRegion) (hD : 0 < D) :
    planSegments D trims = planTail D 0 (sortByStartMs trims) := by
  unfold planSegments planTail
  simp only [foldl_planStep, List.nil_append]
  by_cases ht : trims.isEmpty
  · have htnil : trims = [] := by
      cases trims with
      | nil => rfl
      | cons a l => simp at ht
    subst htnil
    have hsort : sortByStartMs [] = [] := rfl
    rw [hsort]
    simp only [planLoop]
    have hDpos : (0 : ℚ) < D * 1000 := by linarith
    simp [hDpos]
  · simp only [ht, Bool.and_false, Bool.false_eq_true, if_false]

/-- C1, amended: segment planning for disjoint in-range trims: for
every source duration `D > 0` and every trim-region list whose regions
satisfy `0 ≤ startMs < endMs ≤ D·1000` and are pairwise disjoint (in any
order), the segment list computed in `export()` has `start < stop`
segments, is sorted and non-overlapping (each segment ends at or before
the next one starts), and its union — segments taken half-open — equals
`[0, D)` minus the union of the trim regions; the no-trims case yields
exactly one segment `{start := 0, stop := D}`.  (The unrestricted claim
fails: see `planner_overlapping_trims_counterexample`.) -/
theorem planner_disjoint_correct (D : ℚ) (trims : List TrimRegion)
    (hD : 0 < D)
    (hvalid : ∀ t ∈ trims, 0 ≤ t.startMs ∧ t.startMs < t.endMs ∧ t.endMs ≤ D * 1000)
    (hdisj : trims.Pairwise (fun a b => a.endMs ≤ b.startMs ∨ b.endMs ≤ a.startMs)) :
    (∀ s ∈ planSegments D trims, s.start < s.stop) ∧
    (planSegments D trims).Chain' (fun a b => a.stop ≤ b.start) ∧
    (∀ x : ℚ, memSegments (planSegments D trims) x ↔
      (0 ≤ x ∧ x < D ∧ ¬ memTrims trims x)) ∧
    (trims = [] → planSegments D trims = [⟨0, D⟩]) := by
  have hperm : List.Perm (sortByStartMs trims) trims := List.perm_insertionSort trimLE trims
  have hsorted : (sortByStartMs trims).Pairwise trimLE :=
    List.sorted_insertionSort trimLE trims
  have hvalidS : ∀ t ∈ sortByStartMs trims,
      0 ≤ t.startMs ∧ t.startMs < t.endMs ∧ t.endMs ≤ D * 1000 :=
    fun t ht => hvalid t (hperm.mem_iff.mp ht)
  have hdisjS : (sortByStartMs trims).Pairwise
      (fun a b => a.endMs ≤ b.startMs ∨ b.endMs ≤ a.startMs) :=
    (hperm.pairwise_iff (fun h => h.symm)).mpr hdisj
  have hchainS : (sortByStartMs trims).Pairwise (fun a b => a.endMs ≤ b.startMs) := by
    have hand := hsorted.and hdisjS
    refine hand.imp_of_mem ?_
    intro a b ha hb hab
    rcases hab.2 with h | h
    · exact h
    · have hb' := (hvalidS b hb).2.1
      have := hab.1
      unfold trimLE at this
      linarith
  have hmemT : ∀ x, memTrims (sortByStartMs trims) x ↔ memTrims trims x := by
    intro x
    unfold memTrims
    constructor <;> rintro ⟨t, ht, h1, h2⟩
    · exact ⟨t, hperm.mem_iff.mp ht, h1, h2⟩
    · exact ⟨t, hperm.mem_iff.mpr ht, h1, h2⟩
  obtain ⟨hA, hB, hC⟩ := planTail_spec D (sortByStartMs trims) 0 le_rfl
    (fun t ht => ⟨(hvalidS t ht).1, (hvalidS t ht).2⟩) hchainS
  rw [planSegments_eq_planTail D trims hD]
  refine ⟨fun s hs => (hA s hs).2.1, hB, ?_, ?_⟩
  · intro x
    rw [hC x, hmemT x]
    norm_num
  · intro htnil
    subst htnil
    have hDpos : (0 : ℚ) < D * 1000 := by linarith
    have : sortByStartMs [] = [] := rfl
    rw [this, planTail_nil, if_pos hDpos]
    norm_num

/-- Witness for the amended C1, at the spec's round-trip scenario: a
10-second source with one trim region `{2000ms, 4000ms}` plans the
segments `[{0, 2}, {4, 10}]`; the hypotheses hold and e.g. the retained
point `5 s` lies in the planned segments while the trimmed point `3 s`
does not. -/
theorem planner_disjoint_correct_witness :
    ((0 : ℚ) < 10 ∧
      (∀ t ∈ [(⟨2000, 4000⟩ : TrimRegion)],
        0 ≤ t.startMs ∧ t.startMs < t.endMs ∧ t.endMs ≤ 10 * 1000) ∧
      ([(⟨2000, 4000⟩ : TrimRegion)]).Pairwise
        (fun a b => a.endMs ≤ b.startMs ∨ b.endMs ≤ a.startMs)) ∧
    ((∀ s ∈ planSegments 10 [⟨2000, 4000⟩], s.start < s.stop) ∧
      (planSegments 10 [⟨2000, 4000⟩]).Chain' (fun a b => a.stop ≤ b.start) ∧
      (∀ x : ℚ, memSegments (planSegments 10 [⟨2000, 4000⟩]) x ↔
        (0 ≤ x ∧ x < 10 ∧ ¬ memTrims [⟨2000, 4000⟩] x)) ∧
      ([(⟨2000, 4000⟩ : TrimRegion)] = [] →
        planSegments 10 [⟨2000, 4000⟩] = [⟨0, 10⟩])) :=
  ⟨⟨by norm_num,
    by
      intro t ht
      simp only [List.mem_singleton] at ht
      subst ht
      norm_num,
    List.pairwise_singleton _ _⟩,
   planner_disjoint_correct 10 [⟨2000, 4000⟩] (by norm_num)
     (by
       intro t ht
       simp only [List.mem_singleton] at ht
       subst ht
       norm_num)
     (List.pairwise_singleton _ _)⟩

/-! ## Audio interleaving (videoExporter.ts, recordSegment, lines 763-778)

After each captured frame, the loop drains the head of
`this.audioChunks`: while the head chunk's timestamp is at or below
`currentOutputTimestampUs + lookAheadUs` (with
`currentOutputTimestampUs = chunkCount * frameDuration`, the chunk count
already incremented, and `lookAheadUs = 500_000`), the head is shifted
and forwarded to the muxer.  An encoded audio unit is modelled by its
timestamp and an opaque payload identifier. -/

structure AudioChunk where
  timestamp : ℚ
  payload : ℕ
  deriving Repr, DecidableEq

/-- Embeds `const lookAheadUs = 500_000` (line 769). -/
def lookAheadUs : ℚ := 500000

/-- The bound used by the drain after the frame that made `chunkCount`
equal to `k`: `k * frameDuration + lookAheadUs` (lines 767-771). -/
def frameBound (frameDuration : ℚ) (k : ℕ) : ℚ :=
  k * frameDuration + lookAheadUs

/-- Shallow embedding of the drain loop (lines 771-777): shift chunks
from the head while the head's timestamp is at or below the bound,
forwarding each to the muxer.  Returns (muxed, remaining queue). -/
def drainAudio (bound : ℚ) : List AudioChunk → List AudioChunk × List AudioChunk
  | [] => ([], [])
  | c :: rest =>
    if c.timestamp ≤ bound then
      let r := drainAudio bound rest
      (c :: r.1, r.2)
    else ([], c :: rest)

/-- The successive per-frame drains of one export: one `drainAudio` per
captured frame, each with that frame's bound, threading the remaining
queue and accumulating the muxed chunks in order. -/
def drainSeq : List ℚ → List AudioChunk → List AudioChunk × List AudioChunk
  | [], q => ([], q)
  | b :: bs, q =>
    let r := drainAudio b q
    let s := drainSeq bs r.2
    (r.1 ++ s.1, s.2)

lemma drainAudio_append (b : ℚ) (q : List AudioChunk) :
    (drainAudio b q).1 ++ (drainAudio b q).2 = q := by
  induction q with
  | nil => simp [drainAudio]
  | cons c rest ih =>
    simp only [drainAudio]
    by_cases h : c.timestamp ≤ b <;> simp [h, ih]

lemma drainAudio_muxed_le (b : ℚ) (q : List AudioChunk) :
    ∀ c ∈ (drainAudio b q).1, c.timestamp ≤ b := by
  induction q with
  | nil => simp [drainAudio]
  | cons c rest ih =>
    simp only [drainAudio]
    by_cases h : c.timestamp ≤ b
    · simp only [h, if_true]
      intro u hu
      rcases List.mem_cons.mp hu with rfl | hu'
      · exact h
      · exact ih u hu'
    · simp [h]

lemma drainAudio_rest_gt (b : ℚ) (q : List AudioChunk)
    (hq : q.Pairwise (fun a c => a.timestamp ≤ c.timestamp)) :
    ∀ c ∈ (drainAudio b q).2, b < c.timestamp := by
  induction q with
  | nil => simp [drainAudio]
  | cons c rest ih =>
    simp only [drainAudio]
    by_cases h : c.timestamp ≤ b
    · simp only [h, if_true]
      exact ih (List.pairwise_cons.mp hq).2
    · simp only [h, if_false]
      push_neg at h
      intro u hu
      rcases List.mem_cons.mp hu with rfl | hu'
      · exact h
      · exact lt_of_lt_of_le h ((List.pairwise_cons.mp hq).1 u hu')

lemma drainSeq_spec (bounds : List ℚ) (q : List AudioChunk)
    (hq : q.Pairwise (fun a c => a.timestamp ≤ c.timestamp)) :
    (drainSeq bounds q).1 ++ (drainSeq bounds q).2 = q ∧
    (∀ c ∈ (drainSeq bounds q).1, ∃ b ∈ bounds, c.timestamp ≤ b) ∧
    (∀ c ∈ (drainSeq bounds q).2, ∀ b ∈ bounds, b < c.timestamp) := by
  induction bounds generalizing q with
  | nil => simp [drainSeq]
  | cons b bs ih =>
    have happ := drainAudio_append b q
    have hrest2 : (drainAudio b q).2.Pairwise
        (fun a c => a.timestamp ≤ c.timestamp) := by
      have hsub : (drainAudio b q).2.Sublist q := by
        conv_rhs => rw [← happ]
        exact List.sublist_append_right _ _
      exact hq.sublist hsub
    obtain ⟨ih1, ih2, ih3⟩ := ih (drainAudio b q).2 hrest2
    refine ⟨?_, ?_, ?_⟩
    · simp only [drainSeq, List.append_assoc, ih1, happ]
    · intro c hc
      simp only [drainSeq] at hc
      rcases List.mem_append.mp hc with hc1 | hc2
      · exact ⟨b, List.mem_cons_self b bs, drainAudio_muxed_le b q c hc1⟩
      · obtain ⟨b', hb', hcb⟩ := ih2 c hc2
        exact ⟨b', List.mem_cons_of_mem b hb', hcb⟩
    · intro c hc b' hb'
      simp only [drainSeq] at hc
      have hcrest : c ∈ (drainAudio b q).2 := by
        rw [← ih1]
        exact List.mem_append_right _ hc
      rcases List.mem_cons.mp hb' with rfl | hb''
      · exact drainAudio_rest_gt b' q hq c hcrest
      · exact ih3 c hc b' hb''

/-- C7: Audio interleaving: for every queue of pending audio chunks
sorted by timestamp (as produced by `getAllEncodedChunks`, which
encodes blocks at strictly increasing timestamps) and every number of
captured frames, the per-frame drains forward chunks to the muxer in
queue order (muxed ++ remaining is the original queue, so the muxed
sequence is in non-decreasing timestamp order), every muxed chunk is
within some frame's bound `chunkCount * frameDuration + lookAheadUs`,
and after frame `k` no pending chunk at or below that frame's bound
remains — every such chunk has been forwarded. -/
theorem audio_interleaving (d : ℚ) (n : ℕ) (q : List AudioChunk)
    (hq : q.Pairwise (fun a c => a.timestamp ≤ c.timestamp)) :
    (drainSeq ((List.range n).map (fun k => frameBound d (k + 1))) q).1 ++
      (drainSeq ((List.range n).map (fun k => frameBound d (k + 1))) q).2 = q ∧
    (drainSeq ((List.range n).map (fun k => frameBound d (k + 1))) q).1.Pairwise
      (fun a c => a.timestamp ≤ c.timestamp) ∧
    (∀ c ∈ (drainSeq ((List.range n).map (fun k => frameBound d (k + 1))) q).1,
      ∃ k < n, c.timestamp ≤ frameBound d (k + 1)) ∧
    (∀ c ∈ (drainSeq ((List.range n).map (fun k => frameBound d (k + 1))) q).2,
      ∀ k < n, frameBound d (k + 1) < c.timestamp) := by
  set bounds := (List.range n).map (fun k => frameBound d (k + 1)) with hbounds
  obtain ⟨h1, h2, h3⟩ := drainSeq_spec bounds q hq
  refine ⟨h1, ?_, ?_, ?_⟩
  · have hsub : (drainSeq bounds q).1.Sublist q := by
      conv_rhs => rw [← h1]
      exact List.sublist_append_left _ _
    exact hq.sublist hsub
  · intro c hc
    obtain ⟨b, hb, hcb⟩ := h2 c hc
    rw [hbounds] at hb
    obtain ⟨k, hk, rfl⟩ := List.mem_map.mp hb
    exact ⟨k, List.mem_range.mp hk, hcb⟩
  · intro c hc k hk
    exact h3 c hc (frameBound d (k + 1))
      (by
        rw [hbounds]
        exact List.mem_map.mpr ⟨k, List.mem_range.mpr hk, rfl⟩)

/-- Witness for C7: a sorted queue of three chunks, frame duration
`100000 µs` (10 fps), two captured frames: all chunks up to the second
frame's bound `700000 µs` are muxed in order, the chunk at `800000 µs`
remains pending. -/
theorem audio_interleaving_witness :
    ([(⟨0, 0⟩ : AudioChunk), ⟨600000, 1⟩, ⟨800000, 2⟩]).Pairwise
      (fun a c => a.timestamp ≤ c.timestamp) ∧
    (∀ c ∈ (drainSeq ((List.range 2).map (fun k => frameBound 100000 (k + 1)))
        [(⟨0, 0⟩ : AudioChunk), ⟨600000, 1⟩, ⟨800000, 2⟩]).1,
      ∃ k < 2, c.timestamp ≤ frameBound 100000 (k + 1)) ∧
    (drainSeq ((List.range 2).map (fun k => frameBound 100000 (k + 1)))
        [(⟨0, 0⟩ : AudioChunk), ⟨600000, 1⟩, ⟨800000, 2⟩]).1 =
      [⟨0, 0⟩, ⟨600000, 1⟩] :=
  ⟨by norm_num,
   (audio_interleaving 100000 2 [⟨0, 0⟩, ⟨600000, 1⟩, ⟨800000, 2⟩]
      (by norm_num)).2.2.1,
   by norm_num [drainSeq, drainAudio, frameBound, lookAheadUs, List.range_succ]⟩

/-! ## Capture loop model (videoExporter.ts, recordSegment, lines 678-783)

JavaScript is single-threaded: between suspension points the loop body
runs atomically, and the encoder callbacks run only at suspension
points.  A run of the capture phase of one export is therefore a
sequence of atomic events folded over the exporter state:

* `encoderOutput` — the `VideoEncoder` output callback (lines 792-842):
  delivers one compressed chunk, `this.encodeQueue--`.
* `encoderError` — the `VideoEncoder` error callback (lines 843-846):
  `this.cancelled = true`; the encoder leaves the `configured` state.
* `userCancel` — `cancel()` (lines 870-873): `this.cancelled = true` and
  `cleanup()` closes the encoder and resets `encodeQueue`.
* `captureFrame` — one loop iteration whose frame processing succeeded.
  It can only run when the loop is not cancelled and the backpressure
  wait (lines 693-695, `while (encodeQueue > MAX_ENCODE_QUEUE)`) has
  finished, so `encodeQueue ≤ MAX_ENCODE_QUEUE` at entry; the frame is
  submitted to the encoder iff the encoder is in the `configured` state
  (lines 737-741), with timestamp `chunkCount * frameDuration` (line
  715) and `this.encodeQueue++`; `this.chunkCount++` follows (line 744).
* `frameError` — a loop iteration whose frame processing threw (lines
  759-761): logged, nothing else changes.

Events whose code-side guard does not hold (a capture during
backpressure or after cancellation) leave the state unchanged: the code
cannot perform them. -/

/-- Embeds `private readonly MAX_ENCODE_QUEUE = 60` (line 503). -/
def MAX_ENCODE_QUEUE : ℤ := 60

structure CaptureState where
  cancelled : Bool
  encoderConfigured : Bool
  encodeQueue : ℤ
  chunkCount : ℕ
  /-- Timestamps of the frames submitted to `encoder.encode`, in
  submission order. -/
  submitted : List ℚ
  deriving Repr, DecidableEq

inductive CaptureEvent where
  | encoderOutput
  | encoderError
  | userCancel
  | captureFrame
  | frameError
  deriving Repr, DecidableEq

/-- One atomic event of the capture phase, at frame duration `d`. -/
def captureStep (d : ℚ) (s : CaptureState) : CaptureEvent → CaptureState
  | .encoderOutput => { s with encodeQueue := s.encodeQueue - 1 }
  | .encoderError => { s with cancelled := true, encoderConfigured := false }
  | .userCancel =>
      { s with cancelled := true, encoderConfigured := false, encodeQueue := 0 }
  | .captureFrame =>
      if s.cancelled ∨ s.encodeQueue > MAX_ENCODE_QUEUE then s
      else if s.encoderConfigured then
        { s with encodeQueue := s.encodeQueue + 1,
                 chunkCount := s.chunkCount + 1,
                 submitted := s.submitted ++ [(s.chunkCount : ℚ) * d] }
      else { s with chunkCount := s.chunkCount + 1 }
  | .frameError => s

/-- The exporter state right after `initializeEncoder` (lines 786-789:
`encodeQueue = 0`, `chunkCount = 0`) with the encoder configured and
the export not cancelled. -/
def captureInit : CaptureState := ⟨false, true, 0, 0, []⟩

/-- A run of the capture phase: fold the events over the initial state. -/
def captureRun (d : ℚ) (events : List CaptureEvent) : CaptureState :=
  events.foldl (captureStep d) captureInit

lemma captureStep_queue_le (d : ℚ) (s : CaptureState) (e : CaptureEvent)
    (h : s.encodeQueue ≤ MAX_ENCODE_QUEUE + 1) :
    (captureStep d s e).encodeQueue ≤ MAX_ENCODE_QUEUE + 1 := by
  cases e with
  | encoderOutput =>
    show s.encodeQueue - 1 ≤ MAX_ENCODE_QUEUE + 1
    omega
  | encoderError => exact h
  | userCancel =>
    show (0 : ℤ) ≤ MAX_ENCODE_QUEUE + 1
    simp [MAX_ENCODE_QUEUE]
  | captureFrame =>
    simp only [captureStep]
    split
    · exact h
    · rename_i hg
      push_neg at hg
      split
      · show s.encodeQueue + 1 ≤ MAX_ENCODE_QUEUE + 1
        omega
      · exact h
  | frameError => exact h

/-- C6: Backpressure invariant: in every run of the capture loop,
whatever the interleaving of encoder callbacks, cancellation and
capture iterations, the encode queue depth never exceeds
`MAX_ENCODE_QUEUE` plus the one in-flight submission: a frame can only
be submitted after the backpressure wait has seen the depth at or below
the mark, and each submission increments the counter by exactly one. -/
theorem backpressure_bound (d : ℚ) (events : List CaptureEvent) :
    (captureRun d events).encodeQueue ≤ MAX_ENCODE_QUEUE + 1 := by
  suffices h : ∀ s : CaptureState, s.encodeQueue ≤ MAX_ENCODE_QUEUE + 1 →
      (events.foldl (captureStep d) s).encodeQueue ≤ MAX_ENCODE_QUEUE + 1 by
    exact h captureInit (by simp [captureInit, MAX_ENCODE_QUEUE])
  induction events with
  | nil => intro s hs; simpa using hs
  | cons e rest ih =>
    intro s hs
    exact ih _ (captureStep_queue_le d s e hs)

/-- The submission invariant: the submitted timestamps are exactly
`0 · d, 1 · d, …`, their count never exceeds `chunkCount`, and while the
encoder is configured the two agree (once the encoder leaves the
configured state no further frame is ever submitted, so no timestamp is
skipped within the submitted sequence). -/
def SubmitInv (d : ℚ) (s : CaptureState) : Prop :=
  s.submitted = (List.range s.submitted.length).map (fun i : ℕ => (i : ℚ) * d) ∧
  s.submitted.length ≤ s.chunkCount ∧
  (s.encoderConfigured = true → s.submitted.length = s.chunkCount)

lemma captureStep_submitInv (d : ℚ) (s : CaptureState) (e : CaptureEvent)
    (h : SubmitInv d s) : SubmitInv d (captureStep d s e) := by
  obtain ⟨h1, h2, h3⟩ := h
  cases e with
  | encoderOutput => exact ⟨h1, h2, h3⟩
  | encoderError => exact ⟨h1, h2, by simp [captureStep]⟩
  | userCancel => exact ⟨h1, h2, by simp [captureStep]⟩
  | frameError => exact ⟨h1, h2, h3⟩
  | captureFrame =>
    simp only [captureStep]
    split
    · exact ⟨h1, h2, h3⟩
    · split
      · rename_i hc
        have hn : s.submitted.length = s.chunkCount := h3 hc
        refine ⟨?_, ?_, ?_⟩
        · show s.submitted ++ [(s.chunkCount : ℚ) * d] =
            (List.range ((s.submitted ++ [(s.chunkCount : ℚ) * d]).length)).map
              (fun i : ℕ => (i : ℚ) * d)
          have hlen : (s.submitted ++ [(s.chunkCount : ℚ) * d]).length =
              s.submitted.length + 1 := by simp
          rw [hlen, List.range_succ, List.map_append, List.map_singleton]
          rw [← hn]
          exact congrArg (· ++ [((s.submitted.length : ℕ) : ℚ) * d]) h1
        · show (s.submitted ++ [(s.chunkCount : ℚ) * d]).length ≤ s.chunkCount + 1
          simp only [List.length_append, List.length_singleton]
          omega
        · intro _
          show (s.submitted ++ [(s.chunkCount : ℚ) * d]).length = s.chunkCount + 1
          simp only [List.length_append, List.length_singleton]
          omega
      · rename_i hc
        refine ⟨h1, ?_, ?_⟩
        · show s.submitted.length ≤ s.chunkCount + 1
          omega
        · intro habs
          exact absurd habs hc

/-- C5: Monotone, exact video timestamps: in every run of the
capture loop at frame rate `frameRate > 0`, across all segments and
whatever the interleaving of callbacks, errors and skipped frames, the
i-th frame submitted to the video encoder carries timestamp exactly
`i * (1000000 / frameRate)` microseconds, and the submitted timestamps
are strictly increasing. -/
theorem video_timestamps (frameRate : ℚ) (events : List CaptureEvent)
    (hrate : 0 < frameRate) :
    (captureRun (1000000 / frameRate) events).submitted =
      (List.range (captureRun (1000000 / frameRate) events).submitted.length).map
        (fun i : ℕ => (i : ℚ) * (1000000 / frameRate)) ∧
    (captureRun (1000000 / frameRate) events).submitted.Chain' (· < ·) := by
  have hd : 0 < 1000000 / frameRate := by positivity
  have hinv : SubmitInv (1000000 / frameRate) (captureRun (1000000 / frameRate) events) := by
    suffices h : ∀ s : CaptureState, SubmitInv (1000000 / frameRate) s →
        SubmitInv (1000000 / frameRate)
          (events.foldl (captureStep (1000000 / frameRate)) s) by
      exact h captureInit ⟨rfl, le_refl _, fun _ => rfl⟩
    induction events with
    | nil => intro s hs; simpa using hs
    | cons e rest ih =>
      intro s hs
      exact ih _ (captureStep_submitInv _ s e hs)
  refine ⟨hinv.1, ?_⟩
  rw [hinv.1]
  have hp : (List.range (captureRun (1000000 / frameRate) events).submitted.length).Pairwise
      (· < ·) := List.pairwise_lt_range _
  have : ((List.range (captureRun (1000000 / frameRate) events).submitted.length).map
      (fun i : ℕ => (i : ℚ) * (1000000 / frameRate))).Pairwise (· < ·) := by
    rw [List.pairwise_map]
    refine hp.imp ?_
    intro a b hab
    have : (a : ℚ) < (b : ℚ) := by exact_mod_cast hab
    exact mul_lt_mul_of_pos_right this hd
  exact this.chain'

/-- Witness for C5: at 10 fps (`d = 100000 µs`) a run with three
successful captures, an interleaved output callback, a skipped frame and
a trailing cancellation submits exactly the timestamps
`[0, 100000, 200000]`. -/
theorem video_timestamps_witness :
    (0 : ℚ) < 10 ∧
    ((captureRun (1000000 / 10)
        [.captureFrame, .frameError, .captureFrame, .encoderOutput,
          .captureFrame, .userCancel]).submitted =
      (List.range (captureRun (1000000 / 10)
          [.captureFrame, .frameError, .captureFrame, .encoderOutput,
            .captureFrame, .userCancel]).submitted.length).map
        (fun i : ℕ => (i : ℚ) * (1000000 / 10)) ∧
      (captureRun (1000000 / 10)
        [.captureFrame, .frameError, .captureFrame, .encoderOutput,
          .captureFrame, .userCancel]).submitted.Chain' (· < ·)) ∧
    (captureRun (1000000 / 10)
        [.captureFrame, .frameError, .captureFrame, .encoderOutput,
          .captureFrame, .userCancel]).submitted = [0, 100000, 200000] :=
  ⟨by norm_num,
   video_timestamps 10
     [.captureFrame, .frameError, .captureFrame, .encoderOutput,
       .captureFrame, .userCancel] (by norm_num),
   by norm_num [captureRun, captureInit, captureStep, MAX_ENCODE_QUEUE]⟩

/-! ## Control flow of export() (videoExporter.ts, lines 529-676)

The body of `export()` is one big try/catch; `cancel()` (lines 870-873)
sets `this.cancelled = true` and runs `cleanup()`, which nulls
`this.muxer`.  The cancelled flag is checked inside the capture loop and
once more at line 640; after that line it is never read again, so a
cancellation arriving at one of the later suspension points acts only
through the nulled muxer field (`this.muxer.addAudioChunk` /
`this.muxer!.finalize()` then throw a TypeError).  A run of `export()`
is determined by a schedule saying what the environment does at each
suspension point. -/

inductive ExportResult where
  | success
  | failure (error : String)
  deriving Repr, DecidableEq

/-- The outcome of the try-block body: a returned result, or a thrown
(rejected) error. -/
inductive BodyOutcome where
  | normal (r : ExportResult)
  | thrown (e : String)
  deriving Repr, DecidableEq

/-- Embeds `String(error)` for an error modelled by its message string. -/
def jsStringOf (e : String) : String := e

/-- Shallow embedding of `AudioExtractor.decode` (audioExtractor.ts,
lines 31-51): the whole body is wrapped in try/catch and returns `false`
on any decode failure, `true` otherwise — it never throws. -/
def decodeResult (decodeFails : Bool) : Bool :=
  if decodeFails then false else true

/-- What the environment does at one suspension point (`await`):
whether `cancel()` runs during the await, and whether the awaited
operation itself rejects (with the modelled error string). -/
structure Susp where
  cancelHere : Bool
  throwHere : Option String
  deriving Repr, DecidableEq

/-- The environment behavior across one `export()` call. -/
structure ExportSched where
  /-- The initialization awaits (loadVideo, renderer initialization,
  encoder configuration, audio decode, muxer initialization; lines
  535-572). -/
  initS : Susp
  /-- Whether `AudioExtractor.decode` fails (and returns `false`). -/
  audioDecodeFails : Bool
  /-- Whether encoded audio chunks are still pending after the capture
  loop (`this.audioChunks.length > 0`, line 649). -/
  preEncodedAudio : Bool
  /-- Whether `cancel()` fires during the segment capture loop (flag checked at
  lines 614-615 and 691-696). -/
  loopCancel : Bool
  /-- The encoder error callback fires during the loop: it sets
  `this.cancelled = true` (lines 843-846). -/
  loopEncoderError : Bool
  /-- The `await this.encoder.flush()` suspension (lines 644-646). -/
  flushS : Susp
  /-- The `await this.muxer.addAudioChunk(...)` suspensions of the
  audio flush loop (lines 649-654); only reachable when chunks are
  pending. -/
  audioS : Susp
  /-- When `cancel()` fires during the audio flush loop: whether another
  chunk write follows it (the next `this.muxer.addAudioChunk` then
  throws a TypeError on the nulled muxer field). -/
  audioRemaining : Bool
  /-- Whether `cancel()` fires during `await Promise.all(this.muxingPromises)` (line
  656).  This await cannot reject: every muxing promise wraps its body
  in its own try/catch (lines 809-838). -/
  muxAllCancel : Bool
  /-- The `await this.muxer!.finalize()` suspension (line 657); `finalize()` itself is
  invoked synchronously before this suspension begins. -/
  finS : Susp
  deriving Repr, DecidableEq

/-- The modelled TypeError raised by a member access on the nulled
muxer field. -/
def nullMuxerError : String := "TypeError: this.muxer is null"

/-- The modelled TypeError raised by the initialization code resumed
after a `cancel()` fired during an initialization await: `cleanup()`
nulls `this.decoder` and `this.videoElement`, so the next access —
`this.decoder.getVideoElement()` (line 537) or
`this.videoElement.playbackRate = 1.0` (line 579) — throws before the
line-640 cancelled check is ever reached. -/
def nullInitError : String := "TypeError: this.videoElement is null"

/-- Whether encoded audio chunks are pending when the post-loop audio
flush runs; they were only produced if the decode succeeded (line 609:
`if (this.hasAudio && this.audioExtractor)`). -/
def hasPendingAudio (sched : ExportSched) : Bool :=
  decodeResult sched.audioDecodeFails && sched.preEncodedAudio

/-- The final phase of the body: `await Promise.all(muxingPromises)`
then `const blob = await this.muxer!.finalize()` (lines 656-669), given
whether the muxer field is still set when the phase starts.  Returns the
outcome and whether `finalize()` was invoked. -/
def finalizePhase (sched : ExportSched) (muxerPresent : Bool) :
    BodyOutcome × Bool :=
  let muxer := muxerPresent && !sched.muxAllCancel
  if !muxer then (.thrown nullMuxerError, false)
  else
    match sched.finS.throwHere with
    | some e => (.thrown e, true)
    | none => (.normal .success, true)

/-- The try-block body of `export()` (lines 530-669) under a schedule:
the outcome together with whether `muxer.finalize()` was invoked. -/
def exportBody (sched : ExportSched) : BodyOutcome × Bool :=
  match sched.initS.throwHere with
  | some e => (.thrown e, false)
  | none =>
    -- a cancel() during an initialization await nulls the fields that
    -- the resumed initialization code still reads: the run throws a
    -- TypeError (line 537 or 579) before reaching the line-640 check
    if sched.initS.cancelHere then
      (.thrown nullInitError, false)
    -- line 640: `if (this.cancelled) return { success: false,
    -- error: "Export cancelled" }` — the flag was set by a cancel()
    -- during the loop, or by the encoder error callback
    else if sched.loopCancel || sched.loopEncoderError then
      (.normal (.failure "Export cancelled"), false)
    else
      match sched.flushS.throwHere with
      | some e => (.thrown e, false)
      | none =>
        let muxer1 := !sched.flushS.cancelHere
        if hasPendingAudio sched then
          if !muxer1 then (.thrown nullMuxerError, false)
          else
            match sched.audioS.throwHere with
            | some e => (.thrown e, false)
            | none =>
              if sched.audioS.cancelHere then
                if sched.audioRemaining then (.thrown nullMuxerError, false)
                else finalizePhase sched false
              else finalizePhase sched muxer1
        else finalizePhase sched muxer1

/-- Embeds `export()` (lines 529-676): the body wrapped in try/catch — a thrown
error is converted to the failure result with `String(error)`; the
`finally` cleanup only runs destructors individually guarded by their
own try/catch and cannot throw, so `export()` always resolves to an
`ExportResult`. -/
def exportRun (sched : ExportSched) : ExportResult :=
  match (exportBody sched).1 with
  | .normal r => r
  | .thrown e => .failure (jsStringOf e)

/-- Whether `muxer.finalize()` was invoked during the run. -/
def finalizeInvoked (sched : ExportSched) : Bool := (exportBody sched).2

/-- The schedule with no environment events at all. -/
def benignSched : ExportSched :=
  ⟨⟨false, none⟩, false, false, false, false, ⟨false, none⟩, ⟨false, none⟩,
    false, false, ⟨false, none⟩⟩

end OpenScreen

namespace OpenScreen

/-- C8: Audio decode failure is non-fatal: `AudioExtractor.decode`
returns `false` instead of throwing on a decode failure; the export then
proceeds with `hasAudio = false`, no audio chunks are produced, and —
absent unrelated adverse events — the export completes successfully as
a video-only result with the container finalized. -/
theorem audio_decode_failure_nonfatal (sched : ExportSched)
    (hfail : sched.audioDecodeFails = true)
    (h1 : sched.initS.cancelHere = false) (h2 : sched.initS.throwHere = none)
    (h3 : sched.loopCancel = false) (h4 : sched.loopEncoderError = false)
    (h5 : sched.flushS.cancelHere = false) (h6 : sched.flushS.throwHere = none)
    (h7 : sched.muxAllCancel = false) (h8 : sched.finS.throwHere = none) :
    decodeResult sched.audioDecodeFails = false ∧
    exportRun sched = .success ∧
    finalizeInvoked sched = true := by
  obtain ⟨⟨ic, it⟩, adf, pea, lc, lee, ⟨fc, ft⟩, aS, ar, mc, ⟨nc, nt⟩⟩ := sched
  dsimp only at hfail h1 h2 h3 h4 h5 h6 h7 h8
  subst hfail h1 h2 h3 h4 h5 h6 h7 h8
  exact ⟨rfl, rfl, rfl⟩

/-- Witness for C8: the concrete schedule whose only event is an audio
decode failure (with the pending-audio flag set, which is then moot)
exports successfully, video-only. -/
theorem audio_decode_failure_nonfatal_witness :
    ({ benignSched with
      audioDecodeFails := true,
      preEncodedAudio := true } : ExportSched).audioDecodeFails = true ∧
    decodeResult true = false ∧
    exportRun { benignSched with
      audioDecodeFails := true,
      preEncodedAudio := true } = .success ∧
    finalizeInvoked { benignSched with
      audioDecodeFails := true,
      preEncodedAudio := true } = true :=
  ⟨rfl,
    audio_decode_failure_nonfatal
      { benignSched with audioDecodeFails := true, preEncodedAudio := true }
      rfl rfl rfl rfl rfl rfl rfl rfl rfl⟩

/-- C10: the function `export()` never rejects: under every schedule — any
combination of cancellations, encoder errors, decode failures and
rejections thrown by any internal step — the run resolves to a
structured result that is either the success shape or the failure
shape, and whenever the try-block body ends in a thrown error `e`, the
resolved result is exactly `{ success: false, error: String(e) }`. -/
theorem export_never_rejects (sched : ExportSched) :
    (exportRun sched = .success ∨ ∃ s, exportRun sched = .failure s) ∧
    (∀ e, (exportBody sched).1 = .thrown e →
      exportRun sched = .failure (jsStringOf e)) := by
  constructor
  · cases h : exportRun sched with
    | success => exact Or.inl rfl
    | failure s => exact Or.inr ⟨s, rfl⟩
  · intro e he
    unfold exportRun
    rw [he]

/-- Witness for C10: a schedule whose initialization await rejects with
"DOMException: decode error" resolves to the corresponding failure
result. -/
theorem export_never_rejects_witness :
    (exportBody { benignSched with
        initS := ⟨false, some "DOMException: decode error"⟩ }).1 =
      BodyOutcome.thrown "DOMException: decode error" ∧
    exportRun { benignSched with
        initS := ⟨false, some "DOMException: decode error"⟩ } =
      .failure (jsStringOf "DOMException: decode error") :=
  ⟨rfl,
    (export_never_rejects { benignSched with
        initS := ⟨false, some "DOMException: decode error"⟩ }).2
      "DOMException: decode error" rfl⟩

end OpenScreen
